import Mathlib

/-!
# Verification of the SGX untrusted-runtime thread manager (`sgx_thread.c`)

A shallow embedding of `Pal/src/host/Linux-SGX/sgx_thread.c`.

Conventions of the embedding.

* A value of type `sgx_arch_tcs_t*` is a natural number counted in units of
  `sizeof(sgx_arch_tcs_t)`, which is how C pointer arithmetic on that type counts; `NULL`
  is `0`, `&g_enclave_tcs[i]` is `g_enclave_tcs + i` and the difference of two such
  pointers is the difference of the two numbers.
* `unsigned int` values are natural numbers, `int` values are integers; a conversion to
  `int` is written `toInt32`, a conversion to `unsigned int` is written `toUInt32`.
* The table lock is taken and released inside each operation, so an operation is one
  atomic step of a serialized execution; the lock itself carries no state in the model.
* An access to `g_enclave_thread_map[index]` with `index` outside the allocated array and
  a failed `assert` end the execution with a `Fault`.
* The mirror of the table kept for the debugger (`thread_tids` at `DBGINFO_ADDR`) is a
  write-only copy of the `tid` column and is left out.
-/

namespace SgxThread

/-! ## Machine integers and error numbers -/

/-- Conversion of an integer value to the 32-bit `int` type (two's complement wrap). -/
def toInt32 (x : Int) : Int := (x + 2147483648) % 4294967296 - 2147483648

/-- Conversion of an integer value to the 32-bit `unsigned int` type. -/
def toUInt32 (x : Int) : Nat := (x % 4294967296).toNat

/-- Linux `EPERM`. -/
def EPERM : Int := 1

/-- Linux `ENOMEM`. -/
def ENOMEM : Int := 12

/-- Linux `EINVAL`. -/
def EINVAL : Int := 22

/-- Abnormal ends of an operation. -/
inductive Fault where
  /-- An `assert(...)` whose condition is false. -/
  | assert_failed
  /-- An access to `g_enclave_thread_map[index]` outside the allocated array. -/
  | out_of_bounds (index : Int)
  deriving DecidableEq, Repr

deriving instance DecidableEq for Except

/-! ## Data model -/

/-- The C type `struct thread_map { unsigned int tid; sgx_arch_tcs_t* tcs; }`. -/
structure thread_map where
  tid : Nat
  tcs : Nat
  deriving DecidableEq, Repr

/-- The fields of `PAL_TCB_URTS` that `sgx_thread.c` reads or writes. -/
structure PAL_TCB_URTS where
  self : Nat
  tcs : Nat
  stack : Nat
  alt_stack : Nat
  eenter_cnt : Nat
  eexit_cnt : Nat
  aex_cnt : Nat
  sync_signal_cnt : Nat
  async_signal_cnt : Nat
  profile_sample_time : Nat
  deriving DecidableEq, Repr

/-- The three globals `g_enclave_tcs`, `g_enclave_thread_num`, `g_enclave_thread_map`. -/
structure TcsMapper where
  g_enclave_tcs : Nat
  g_enclave_thread_num : Int
  g_enclave_thread_map : List thread_map
  deriving DecidableEq, Repr

/-! ## Slot table operations -/

/-- The C function `create_tcs_mapper(tcs_base, thread_num)`: the array gets `thread_num`
entries, entry `i` unbound and referring to `&g_enclave_tcs[i]`; the `unsigned int`
count is stored in the `int` global. -/
def create_tcs_mapper (tcs_base : Nat) (thread_num : Nat) : TcsMapper :=
  { g_enclave_tcs := tcs_base
    g_enclave_thread_num := toInt32 thread_num
    g_enclave_thread_map := (List.range thread_num).map fun i => ⟨0, tcs_base + i⟩ }

/-- Read of `g_enclave_thread_map[index]`. -/
def entry_at (m : List thread_map) (index : Int) : Except Fault thread_map :=
  if 0 ≤ index then
    match m[index.toNat]? with
    | some e => .ok e
    | none => .error (.out_of_bounds index)
  else .error (.out_of_bounds index)

/-- The loop of `map_tcs`, `for (i = ...; i < g_enclave_thread_num; i++)`, with `n`
iterations left and loop variable `i`: the first entry whose `tid` is zero receives
`tid`, its slot goes to the caller's `tcb->tcs`, and the loop breaks. -/
def map_tcs_loop (tid : Nat) (tcb : PAL_TCB_URTS) :
    Nat → Nat → List thread_map → Except Fault (List thread_map × PAL_TCB_URTS)
  | 0, _, m => .ok (m, tcb)
  | n + 1, i, m =>
    match entry_at m i with
    | .error f => .error f
    | .ok e =>
      if e.tid = 0 then .ok (m.set i { e with tid := tid }, { tcb with tcs := e.tcs })
      else map_tcs_loop tid tcb n (i + 1) m

/-- The C function `map_tcs(tid)`, run by the thread whose control block is `tcb`. -/
def map_tcs (g : TcsMapper) (tcb : PAL_TCB_URTS) (tid : Nat) :
    Except Fault (TcsMapper × PAL_TCB_URTS) :=
  match map_tcs_loop tid tcb g.g_enclave_thread_num.toNat 0 g.g_enclave_thread_map with
  | .error f => .error f
  | .ok (m, tcb1) => .ok ({ g with g_enclave_thread_map := m }, tcb1)

/-- The value of `int index = tcs - g_enclave_tcs`. -/
def tcs_index (g : TcsMapper) (tcs : Nat) : Int :=
  toInt32 ((tcs : Int) - (g.g_enclave_tcs : Int))

/-- The C function `unmap_tcs()`, run by the thread whose control block is `tcb`. -/
def unmap_tcs (g : TcsMapper) (tcb : PAL_TCB_URTS) :
    Except Fault (TcsMapper × PAL_TCB_URTS) :=
  let index := tcs_index g tcb.tcs
  if index < g.g_enclave_thread_num then
    match entry_at g.g_enclave_thread_map index with
    | .error f => .error f
    | .ok e =>
      .ok ({ g with g_enclave_thread_map :=
                      g.g_enclave_thread_map.set index.toNat { e with tid := 0 } },
           { tcb with tcs := 0 })
  else .error .assert_failed

/-- The loop of `current_enclave_thread_cnt` with `n` iterations left, loop variable `i`
and running count `ret`. -/
def thread_cnt_loop (m : List thread_map) : Nat → Nat → Int → Except Fault Int
  | 0, _, ret => .ok ret
  | n + 1, i, ret =>
    match entry_at m i with
    | .error f => .error f
    | .ok e => thread_cnt_loop m n (i + 1) (if e.tid ≠ 0 then ret + 1 else ret)

/-- The C function `current_enclave_thread_cnt()`; it has no write to the table. -/
def current_enclave_thread_cnt (g : TcsMapper) : Except Fault Int :=
  thread_cnt_loop g.g_enclave_thread_map g.g_enclave_thread_num.toNat 0 0

/-- The C function `get_tid_from_tcs(tcs)`: the `index >= g_enclave_thread_num` test
comes before the read of `map->tid`; the `unsigned int` tid is returned as `int`. -/
def get_tid_from_tcs (g : TcsMapper) (tcs : Nat) : Except Fault Int :=
  let index := tcs_index g tcs
  if index ≥ g.g_enclave_thread_num then .ok (-EINVAL)
  else
    match entry_at g.g_enclave_thread_map index with
    | .error f => .error f
    | .ok e => if e.tid = 0 then .ok (-EINVAL) else .ok (toInt32 e.tid)

/-! ## Serialized executions of the slot binder -/

/-- The tables that `create_tcs_mapper tcs_base thread_num` followed by any calls of
`map_tcs` and `unmap_tcs` (any caller, any argument) that run to their end can produce. -/
inductive Reachable (tcs_base thread_num : Nat) : TcsMapper → Prop where
  | create : Reachable tcs_base thread_num (create_tcs_mapper tcs_base thread_num)
  | map_tcs {g g1 : TcsMapper} {tcb tcb1 : PAL_TCB_URTS} {tid : Nat} :
      Reachable tcs_base thread_num g → map_tcs g tcb tid = .ok (g1, tcb1) →
      Reachable tcs_base thread_num g1
  | unmap_tcs {g g1 : TcsMapper} {tcb tcb1 : PAL_TCB_URTS} :
      Reachable tcs_base thread_num g → unmap_tcs g tcb = .ok (g1, tcb1) →
      Reachable tcs_base thread_num g1

/-- Number of table entries whose `tid` is nonzero. -/
def bound_cnt (g : TcsMapper) : Nat :=
  g.g_enclave_thread_map.countP fun e => e.tid ≠ 0

/-- A call of the slot binder by some thread, given by that thread's control block. -/
inductive Op where
  | map_tcs (tcb : PAL_TCB_URTS) (tid : Nat)
  | unmap_tcs (tcb : PAL_TCB_URTS)
  deriving DecidableEq, Repr

/-- The table after one call (the caller's control block is the caller's own business). -/
def Op.apply (g : TcsMapper) : Op → Except Fault TcsMapper
  | .map_tcs tcb tid =>
    match SgxThread.map_tcs g tcb tid with
    | .error f => .error f
    | .ok (g1, _) => .ok g1
  | .unmap_tcs tcb =>
    match SgxThread.unmap_tcs g tcb with
    | .error f => .error f
    | .ok (g1, _) => .ok g1

/-- The table after a serialized sequence of calls. -/
def exec (g : TcsMapper) : List Op → Except Fault TcsMapper
  | [] => .ok g
  | op :: ops =>
    match op.apply g with
    | .error f => .error f
    | .ok g1 => exec g1 ops

/-- A call that belongs to a thread other than the holder of entry `i`: any `map_tcs`,
and an `unmap_tcs` of a thread whose recorded slot is `&g_enclave_tcs[j]` for some `j`
in the table other than `i`. -/
def Op.on_other_entry (tcs_base thread_num i : Nat) : Op → Prop
  | .map_tcs _ _ => True
  | .unmap_tcs tcb => ∃ j, j < thread_num ∧ j ≠ i ∧ tcb.tcs = tcs_base + j

/-- An OS thread: its thread id and its control block. -/
structure Thread where
  tid : Nat
  tcb : PAL_TCB_URTS
  deriving DecidableEq, Repr

/-- The slot table together with the threads of the process. -/
structure Sys where
  g : TcsMapper
  threads : List Thread
  deriving DecidableEq, Repr

/-- A call of the slot binder by the thread at position `k` of `Sys.threads`; `map`
is `map_tcs(gettid())` as `pal_thread_init` issues it. -/
inductive Call where
  | map (k : Nat)
  | unmap (k : Nat)
  deriving DecidableEq, Repr

/-- One call, run on the table and on the calling thread's control block. -/
def Sys.step (s : Sys) : Call → Except Fault Sys
  | .map k =>
    match s.threads[k]? with
    | none => .ok s
    | some th =>
      match map_tcs s.g th.tcb th.tid with
      | .error f => .error f
      | .ok (g1, tcb1) => .ok { g := g1, threads := s.threads.set k { th with tcb := tcb1 } }
  | .unmap k =>
    match s.threads[k]? with
    | none => .ok s
    | some th =>
      match unmap_tcs s.g th.tcb with
      | .error f => .error f
      | .ok (g1, tcb1) => .ok { g := g1, threads := s.threads.set k { th with tcb := tcb1 } }

/-- A serialized sequence of calls. -/
def Sys.run (s : Sys) : List Call → Except Fault Sys
  | [] => .ok s
  | c :: cs =>
    match s.step c with
    | .error f => .error f
    | .ok s1 => s1.run cs

/-- The calling pattern of `pal_thread_init`: `map_tcs` is called by a thread whose
`tcb->tcs` is `NULL`, `unmap_tcs` by a thread whose `tcb->tcs` is not `NULL`. -/
def Call.in_order (s : Sys) : Call → Bool
  | .map k =>
    match s.threads[k]? with
    | none => false
    | some th => th.tcb.tcs == 0
  | .unmap k =>
    match s.threads[k]? with
    | none => false
    | some th => th.tcb.tcs != 0

/-- Every call of the sequence follows the calling pattern in the state it is made in
(a call that ends in a fault ends the execution, so nothing is asked of later calls). -/
def Sys.in_order (s : Sys) : List Call → Bool
  | [] => true
  | c :: cs =>
    c.in_order s &&
      match s.step c with
      | .error _ => true
      | .ok s1 => s1.in_order cs

/-- Number of threads that hold a slot, which a thread does from its successful
`map_tcs` (which stores the slot in `tcb->tcs`) to its `unmap_tcs` (which stores `NULL`). -/
def Sys.holders (s : Sys) : Nat :=
  s.threads.countP fun th => th.tcb.tcs ≠ 0

/-- The process at start: the table as created, and threads none of which holds a slot. -/
def Sys.start (tcs_base thread_num : Nat) (threads : List Thread) : Sys :=
  { g := create_tcs_mapper tcs_base thread_num, threads := threads }

/-- Threads as they are before their first bind: distinct nonzero thread ids and
`tcb->tcs == NULL`. -/
def fresh_threads (threads : List Thread) : Prop :=
  (threads.map fun th => th.tid).Nodup ∧ ∀ th ∈ threads, th.tid ≠ 0 ∧ th.tcb.tcs = 0

/-! ## Statistics -/

/-- The five process-wide counters, the `static atomic_ulong` variables of
`update_and_print_stats`. -/
structure Stats where
  g_eenter_cnt : Nat
  g_eexit_cnt : Nat
  g_aex_cnt : Nat
  g_sync_signal_cnt : Nat
  g_async_signal_cnt : Nat
  deriving DecidableEq, Repr

/-- A block of text written by `urts_log_always`: the id and the five numbers printed. -/
inductive Report where
  | thread (tid : Int) (eenter eexit aex sync async : Nat)
  | process (pid : Int) (eenter eexit aex sync async : Nat)
  deriving DecidableEq, Repr

/-- Addition of `unsigned long` values. -/
def add64 (a b : Nat) : Nat := (a + b) % 18446744073709551616

/-- The C function `update_and_print_stats(process_wide)` run by the thread with control
block `tcb`; `tid` and `pid` are what the `gettid` and `getpid` system calls return. The
result is the new totals and the reports written. -/
def update_and_print_stats (g_sgx_enable_stats : Bool) (st : Stats) (tcb : PAL_TCB_URTS)
    (tid pid : Int) (process_wide : Bool) : Except Fault (Stats × List Report) :=
  if !g_sgx_enable_stats then .ok (st, [])
  else if ¬ (tid > 0) then .error .assert_failed
  else
    let r1 := Report.thread tid tcb.eenter_cnt tcb.eexit_cnt tcb.aex_cnt
                tcb.sync_signal_cnt tcb.async_signal_cnt
    let st1 : Stats :=
      { g_eenter_cnt := add64 st.g_eenter_cnt tcb.eenter_cnt
        g_eexit_cnt := add64 st.g_eexit_cnt tcb.eexit_cnt
        g_aex_cnt := add64 st.g_aex_cnt tcb.aex_cnt
        g_sync_signal_cnt := add64 st.g_sync_signal_cnt tcb.sync_signal_cnt
        g_async_signal_cnt := add64 st.g_async_signal_cnt tcb.async_signal_cnt }
    if process_wide then
      if ¬ (pid > 0) then .error .assert_failed
      else
        .ok (st1, [r1, Report.process pid st1.g_eenter_cnt st1.g_eexit_cnt st1.g_aex_cnt
                         st1.g_sync_signal_cnt st1.g_async_signal_cnt])
    else .ok (st1, [r1])

/-- A thread at its exit: its control block, its thread id, and the `process_wide`
argument of its call. -/
structure Exiting where
  tcb : PAL_TCB_URTS
  tid : Int
  process_wide : Bool
  deriving DecidableEq, Repr

/-- The threads of the list call `update_and_print_stats` one after the other, with
statistics enabled; the result is the totals and all reports in order. -/
def exit_all (pid : Int) : Stats → List Exiting → Except Fault (Stats × List Report)
  | st, [] => .ok (st, [])
  | st, x :: xs =>
    match update_and_print_stats true st x.tcb x.tid pid x.process_wide with
    | .error f => .error f
    | .ok (st1, out1) =>
      match exit_all pid st1 xs with
      | .error f => .error f
      | .ok (st2, out2) => .ok (st2, out1 ++ out2)

/-- The totals at process start. -/
def Stats.zero : Stats := ⟨0, 0, 0, 0, 0⟩

/-- Component-wise sum, modulo `2^64`, of the five counters of the threads. -/
def counters_sum (xs : List Exiting) : Stats :=
  { g_eenter_cnt := (xs.map fun x => x.tcb.eenter_cnt).sum % 18446744073709551616
    g_eexit_cnt := (xs.map fun x => x.tcb.eexit_cnt).sum % 18446744073709551616
    g_aex_cnt := (xs.map fun x => x.tcb.aex_cnt).sum % 18446744073709551616
    g_sync_signal_cnt := (xs.map fun x => x.tcb.sync_signal_cnt).sum % 18446744073709551616
    g_async_signal_cnt :=
      (xs.map fun x => x.tcb.async_signal_cnt).sum % 18446744073709551616 }

/-! ## Thread start and thread creation -/

/-- Constants and the pointer test that `sgx_thread.c` takes from headers; addresses of
stack memory are byte addresses. -/
structure Platform where
  THREAD_STACK_SIZE : Nat
  ALT_STACK_SIZE : Nat
  sizeof_PAL_TCB_URTS : Nat
  IS_ERR_P : Nat → Bool

/-- System calls and external calls, in the order they are made. -/
inductive Event where
  | arch_prctl_set_gs (tcb : Nat)
  | sigaltstack (ss_sp ss_size : Nat)
  | gettid
  | log_no_tcs_left (thread_num : Int)
  | ecall_thread_start
  | mmap (size : Nat)
  | munmap (addr size : Nat)
  | tcb_init (tcb : Nat) (value : PAL_TCB_URTS)
  | clone (child_stack_top tcb : Nat)
  deriving DecidableEq, Repr

/-- What the system calls of `pal_thread_init` return. -/
structure InitEnv where
  arch_prctl : Int
  sigaltstack : Int
  gettid : Int
  deriving DecidableEq, Repr

/-- What `pal_thread_init` returns and leaves behind. -/
structure InitResult where
  ret : Int
  g : TcsMapper
  tcb : PAL_TCB_URTS
  trace : List Event
  deriving DecidableEq, Repr

/-- The label `out:` of `pal_thread_init`: unmap the thread's region, return `ret`. -/
def pal_thread_init_out (p : Platform) (ret : Int) (g : TcsMapper) (tcb : PAL_TCB_URTS)
    (trace : List Event) : InitResult :=
  { ret := ret, g := g, tcb := tcb
    trace := trace ++ [.munmap tcb.stack (p.THREAD_STACK_SIZE + p.ALT_STACK_SIZE)] }

/-- The C function `pal_thread_init(tcbptr)`, where `tcb` is the control block at
`tcbptr`. The table that the other threads leave while this thread runs enclave code
inside `ecall_thread_start` is `during_ecall g`. -/
def pal_thread_init (p : Platform) (env : InitEnv) (during_ecall : TcsMapper → TcsMapper)
    (g : TcsMapper) (tcbptr : Nat) (tcb : PAL_TCB_URTS) : Except Fault InitResult :=
  let t1 := [Event.arch_prctl_set_gs tcbptr]
  if env.arch_prctl < 0 then .ok (pal_thread_init_out p (-EPERM) g tcb t1)
  else
    let t2 :=
      if tcb.alt_stack ≠ 0 then
        t1 ++ [Event.sigaltstack tcb.alt_stack (p.ALT_STACK_SIZE - p.sizeof_PAL_TCB_URTS)]
      else t1
    if tcb.alt_stack ≠ 0 ∧ env.sigaltstack < 0 then
      .ok (pal_thread_init_out p (-EPERM) g tcb t2)
    else
      let t3 := t2 ++ [Event.gettid]
      match map_tcs g tcb (toUInt32 env.gettid) with
      | .error f => .error f
      | .ok (g1, tcb1) =>
        if tcb1.tcs = 0 then
          .ok (pal_thread_init_out p (-ENOMEM) g1 tcb1
                (t3 ++ [Event.log_no_tcs_left g1.g_enclave_thread_num]))
        else if tcb1.stack = 0 then
          .ok { ret := 0, g := g1, tcb := tcb1, trace := t3 }
        else
          let t4 := t3 ++ [Event.ecall_thread_start]
          match unmap_tcs (during_ecall g1) tcb1 with
          | .error f => .error f
          | .ok (g2, tcb2) => .ok (pal_thread_init_out p 0 g2 tcb2 t4)

/-- The C function `pal_tcb_urts_init(tcb, stack, alt_stack)`: the value written to the
control block at address `tcb`. -/
def pal_tcb_urts_init (tcb stack alt_stack : Nat) : PAL_TCB_URTS :=
  { self := tcb, tcs := 0, stack := stack, alt_stack := alt_stack
    eenter_cnt := 0, eexit_cnt := 0, aex_cnt := 0, sync_signal_cnt := 0
    async_signal_cnt := 0, profile_sample_time := 0 }

/-- What `clone_thread` returns and the calls it made. -/
structure CloneResult where
  ret : Int
  trace : List Event
  deriving DecidableEq, Repr

/-- The C function `clone_thread()`; `mmap_ret` is the value the `mmap` system call
returns and `clone_ret` the value `clone` returns. -/
def clone_thread (p : Platform) (mmap_ret : Nat) (clone_ret : Int) : CloneResult :=
  let size := p.THREAD_STACK_SIZE + p.ALT_STACK_SIZE
  let stack := mmap_ret
  if p.IS_ERR_P stack then { ret := -ENOMEM, trace := [.mmap size] }
  else
    let child_stack_top := stack + p.THREAD_STACK_SIZE
    let tcb := child_stack_top + p.ALT_STACK_SIZE - p.sizeof_PAL_TCB_URTS
    let t1 := [Event.mmap size, .tcb_init tcb (pal_tcb_urts_init tcb stack child_stack_top)]
    let child_stack_top := child_stack_top - child_stack_top % 16
    let ret := clone_ret
    let t2 := t1 ++ [Event.clone child_stack_top tcb]
    if ret < 0 then { ret := ret, trace := t2 ++ [.munmap stack size] }
    else { ret := 0, trace := t2 }

/-- Number of `clone` requests in a trace. -/
def clone_count (t : List Event) : Nat :=
  t.countP fun e => match e with | .clone _ _ => true | _ => false

/-- The `munmap` requests of a trace, in order. -/
def munmaps (t : List Event) : List (Nat × Nat) :=
  t.filterMap fun e => match e with | .munmap a n => some (a, n) | _ => none

/-- Whether a trace has a call of `ecall_thread_start`. -/
def calls_ecall_thread_start (t : List Event) : Bool :=
  t.contains Event.ecall_thread_start

/-- Page-sized platform constants for examples: 64 KiB stacks, a 128-byte control
block, and error pointers in the last 4095 addresses. -/
def platform0 : Platform :=
  { THREAD_STACK_SIZE := 65536, ALT_STACK_SIZE := 65536, sizeof_PAL_TCB_URTS := 128
    IS_ERR_P := fun p => decide (18446744073709547521 ≤ p) }

/-- A control block as `pal_tcb_urts_init` leaves it, for a thread on its OS stack. -/
def tcb0 : PAL_TCB_URTS := ⟨0, 0, 0, 0, 0, 0, 0, 0, 0, 0⟩

/-! ## Invariants -/

/-- What every reachable table satisfies: the globals are as configured, entry `i` refers
to slot `tcs_base + i`, and the entries past the stored count are never bound. -/
structure WF (tcs_base thread_num : Nat) (g : TcsMapper) : Prop where
  base : g.g_enclave_tcs = tcs_base
  num : g.g_enclave_thread_num = toInt32 thread_num
  len : g.g_enclave_thread_map.length = thread_num
  slot : ∀ i e, g.g_enclave_thread_map[i]? = some e → e.tcs = tcs_base + i
  rest : ∀ i e, g.g_enclave_thread_map[i]? = some e → (toInt32 thread_num).toNat ≤ i →
    e.tid = 0

/-- What holds of the table and the threads along an execution that follows the calling
pattern: thread ids are distinct and nonzero, every thread with a non-NULL `tcb->tcs`
has the slot of an entry that carries its id, every bound entry carries the id of a
thread that has its slot, and the bound entries are as many as the holders. -/
structure SysInv (tcs_base thread_num : Nat) (s : Sys) : Prop where
  wf : WF tcs_base thread_num s.g
  inj : ∀ (k1 k2 : Nat) (th1 th2 : Thread), s.threads[k1]? = some th1 →
    s.threads[k2]? = some th2 → th1.tid = th2.tid → k1 = k2
  nonzero : ∀ (k : Nat) (th : Thread), s.threads[k]? = some th → th.tid ≠ 0
  held : ∀ (k : Nat) (th : Thread), s.threads[k]? = some th → th.tcb.tcs ≠ 0 →
    ∃ (i : Nat) (e : thread_map), i < (toInt32 thread_num).toNat ∧
      th.tcb.tcs = tcs_base + i ∧ s.g.g_enclave_thread_map[i]? = some e ∧ e.tid = th.tid
  owner : ∀ (i : Nat) (e : thread_map), s.g.g_enclave_thread_map[i]? = some e → e.tid ≠ 0 →
    ∃ (k : Nat) (th : Thread), s.threads[k]? = some th ∧ th.tid = e.tid ∧
      th.tcb.tcs = tcs_base + i
  count : bound_cnt s.g = s.holders

/-! ## Lemmas on machine integers and on reads of the table -/

theorem toInt32_of_lt (x : Int) (h0 : 0 ≤ x) (h1 : x < 2147483648) : toInt32 x = x := by
  unfold toInt32; omega

theorem toInt32_le_self (n : Nat) : toInt32 n ≤ n := by
  unfold toInt32; omega

theorem toInt32_toNat_le (n : Nat) : (toInt32 n).toNat ≤ n := by
  have := toInt32_le_self n; omega

theorem toInt32_lt (x : Int) : toInt32 x < 2147483648 := by
  unfold toInt32; omega

theorem entry_at_some {m : List thread_map} {i : Nat} {e : thread_map} (h : m[i]? = some e) :
    entry_at m (i : Int) = .ok e := by
  simp [entry_at, h]

theorem entry_at_none {m : List thread_map} {i : Nat} (h : m[i]? = none) :
    entry_at m (i : Int) = .error (.out_of_bounds i) := by
  simp [entry_at, h]

theorem entry_at_neg (m : List thread_map) {x : Int} (h : x < 0) :
    entry_at m x = .error (.out_of_bounds x) := by
  simp [entry_at, not_le.mpr h]

theorem WF_create (tcs_base thread_num : Nat) :
    WF tcs_base thread_num (create_tcs_mapper tcs_base thread_num) := by
  refine ⟨rfl, rfl, by simp [create_tcs_mapper], ?_, ?_⟩
  · intro i e h
    simp only [create_tcs_mapper, List.getElem?_map] at h
    by_cases hi : i < thread_num
    · rw [List.getElem?_range hi] at h
      simp at h; subst h; rfl
    · rw [List.getElem?_eq_none (by simpa using hi)] at h
      simp at h
  · intro i e h _
    simp only [create_tcs_mapper, List.getElem?_map] at h
    by_cases hi : i < thread_num
    · rw [List.getElem?_range hi] at h
      simp at h; subst h; rfl
    · rw [List.getElem?_eq_none (by simpa using hi)] at h
      simp at h

/-- The loop of `map_tcs` over entries that are all bound changes nothing. -/
theorem map_tcs_loop_full (tid : Nat) (tcb : PAL_TCB_URTS) (m : List thread_map) :
    ∀ n i, i + n ≤ m.length →
      (∀ j e, i ≤ j → j < i + n → m[j]? = some e → e.tid ≠ 0) →
      map_tcs_loop tid tcb n i m = .ok (m, tcb) := by
  intro n
  induction n with
  | zero => intro i _ _; rfl
  | succ n ih =>
    intro i hlen hall
    have hi : i < m.length := by omega
    have hget : m[i]? = some m[i] := List.getElem?_eq_getElem hi
    have hne : (m[i]).tid ≠ 0 := hall i _ (le_refl _) (by omega) hget
    rw [map_tcs_loop, entry_at_some hget]
    simp only [hne, if_false]
    exact ih (i + 1) (by omega) (fun j e h1 h2 h3 => hall j e (by omega) (by omega) h3)

/-- The loop of `map_tcs` binds the first unbound entry it meets. -/
theorem map_tcs_loop_first (tid : Nat) (tcb : PAL_TCB_URTS) (m : List thread_map)
    (k : Nat) (e : thread_map) (hk : m[k]? = some e) (he : e.tid = 0) :
    ∀ n i, i ≤ k → k < i + n →
      (∀ j e1, i ≤ j → j < k → m[j]? = some e1 → e1.tid ≠ 0) →
      map_tcs_loop tid tcb n i m
        = .ok (m.set k { e with tid := tid }, { tcb with tcs := e.tcs }) := by
  intro n
  induction n with
  | zero => intro i h1 h2 _; omega
  | succ n ih =>
    intro i h1 h2 hall
    by_cases hik : i = k
    · subst hik
      rw [map_tcs_loop, entry_at_some hk]
      simp [he]
    · have hklen : k < m.length := by
        rcases List.getElem?_eq_some.mp hk with ⟨h, _⟩; exact h
      have hi : i < m.length := by omega
      have hget : m[i]? = some m[i] := List.getElem?_eq_getElem hi
      have hne : (m[i]).tid ≠ 0 := hall i _ (le_refl _) (by omega) hget
      rw [map_tcs_loop, entry_at_some hget]
      simp only [hne, if_false]
      exact ih (i + 1) (by omega) (by omega)
        (fun j e1 h3 h4 h5 => hall j e1 (by omega) h4 h5)

/-- The table after a successful bind of entry `k` is well formed again. -/
theorem WF_set {tcs_base thread_num : Nat} {g : TcsMapper} (h : WF tcs_base thread_num g)
    (k : Nat) (e : thread_map) (hk : g.g_enclave_thread_map[k]? = some e) (tid : Nat)
    (hr : (toInt32 thread_num).toNat ≤ k → tid = 0) :
    WF tcs_base thread_num
      { g with g_enclave_thread_map := g.g_enclave_thread_map.set k { e with tid := tid } } := by
  refine ⟨h.base, h.num, by simp [h.len], ?_, ?_⟩
  · intro i e1 hi
    simp only [List.getElem?_set] at hi
    split at hi
    · next hki =>
      subst hki
      split at hi
      · simp at hi; subst hi; exact h.slot k e hk
      · simp at hi
    · exact h.slot i e1 hi
  · intro i e1 hi hle
    simp only [List.getElem?_set] at hi
    split at hi
    · next hki =>
      subst hki
      split at hi
      · simp at hi; subst hi; exact hr hle
      · simp at hi
    · exact h.rest i e1 hi hle

/-- The two possible results of `map_tcs` on a well-formed table: either an entry `k`
below the stored count is the first unbound one and gets bound, or all entries below
the stored count are bound and nothing changes. -/
theorem map_tcs_cases {tcs_base thread_num : Nat} {g : TcsMapper}
    (h : WF tcs_base thread_num g) (tcb : PAL_TCB_URTS) (tid : Nat) :
    (∃ k e, k < (toInt32 thread_num).toNat ∧ g.g_enclave_thread_map[k]? = some e ∧ e.tid = 0 ∧
        (∀ j e1, j < k → g.g_enclave_thread_map[j]? = some e1 → e1.tid ≠ 0) ∧
        map_tcs g tcb tid
          = .ok ({ g with g_enclave_thread_map :=
                            g.g_enclave_thread_map.set k { e with tid := tid } },
                 { tcb with tcs := tcs_base + k })) ∨
    ((∀ j e1, j < (toInt32 thread_num).toNat → g.g_enclave_thread_map[j]? = some e1 →
        e1.tid ≠ 0) ∧ map_tcs g tcb tid = .ok (g, tcb)) := by
  classical
  have hn : (toInt32 thread_num).toNat ≤ g.g_enclave_thread_map.length := by
    rw [h.len]; exact toInt32_toNat_le _
  by_cases hex : ∃ k, k < (toInt32 thread_num).toNat ∧
      ∃ e, g.g_enclave_thread_map[k]? = some e ∧ e.tid = 0
  · left
    have hmin : ∀ {j : Nat}, j < Nat.find hex → ¬ (j < (toInt32 thread_num).toNat ∧
        ∃ e, g.g_enclave_thread_map[j]? = some e ∧ e.tid = 0) := fun hj => Nat.find_min hex hj
    obtain ⟨hk, e, hke, he⟩ := Nat.find_spec hex
    refine ⟨Nat.find hex, e, hk, hke, he, ?_, ?_⟩
    · intro j e1 hj hje h0
      exact hmin hj ⟨by omega, e1, hje, h0⟩
    · have hloop := map_tcs_loop_first tid tcb g.g_enclave_thread_map (Nat.find hex) e hke he
        (toInt32 thread_num).toNat 0 (Nat.zero_le _) (by omega)
        (fun j e1 _ hj hje h0 => hmin hj ⟨by omega, e1, hje, h0⟩)
      have hnum : g.g_enclave_thread_num.toNat = (toInt32 thread_num).toNat := by rw [h.num]
      unfold map_tcs
      rw [hnum, hloop, h.slot _ _ hke]
  · right
    have hall : ∀ j e1, j < (toInt32 thread_num).toNat → g.g_enclave_thread_map[j]? = some e1 →
        e1.tid ≠ 0 := fun j e1 hj hje h0 => hex ⟨j, hj, e1, hje, h0⟩
    refine ⟨hall, ?_⟩
    have hloop := map_tcs_loop_full tid tcb g.g_enclave_thread_map
      (toInt32 thread_num).toNat 0 (by omega) (fun j e1 _ hj hje => hall j e1 (by omega) hje)
    have hnum : g.g_enclave_thread_num.toNat = (toInt32 thread_num).toNat := by rw [h.num]
    unfold map_tcs
    rw [hnum, hloop]

/-- The index that `unmap_tcs` and `get_tid_from_tcs` compute for the slot of entry `i`. -/
theorem tcs_index_slot {tcs_base thread_num : Nat} {g : TcsMapper}
    (h : WF tcs_base thread_num g) (i : Nat) (hi : i < (toInt32 thread_num).toNat) :
    tcs_index g (tcs_base + i) = i := by
  have h1 := toInt32_lt thread_num
  simp only [tcs_index, h.base]
  rw [show ((tcs_base + i : Nat) : Int) - (tcs_base : Int) = (i : Int) by push_cast; ring]
  exact toInt32_of_lt _ (by omega) (by omega)

/-- The result of `unmap_tcs` for a thread whose recorded slot is that of entry `i`. -/
theorem unmap_tcs_slot {tcs_base thread_num : Nat} {g : TcsMapper}
    (h : WF tcs_base thread_num g) (tcb : PAL_TCB_URTS) (i : Nat)
    (hi : i < (toInt32 thread_num).toNat) (e : thread_map)
    (he : g.g_enclave_thread_map[i]? = some e) (htcs : tcb.tcs = tcs_base + i) :
    unmap_tcs g tcb
      = .ok ({ g with g_enclave_thread_map :=
                        g.g_enclave_thread_map.set i { e with tid := 0 } },
             { tcb with tcs := 0 }) := by
  have hidx := tcs_index_slot h i hi
  have hlt : (i : Int) < g.g_enclave_thread_num := by rw [h.num]; omega
  simp only [unmap_tcs, htcs, hidx, hlt, if_true, entry_at_some he, Int.toNat_ofNat]

/-- If `unmap_tcs` runs to its end, it cleared one entry below the stored count. -/
theorem unmap_tcs_ok {g g1 : TcsMapper} {tcb tcb1 : PAL_TCB_URTS}
    (h : unmap_tcs g tcb = .ok (g1, tcb1)) :
    ∃ (k : Nat) (e : thread_map), (k : Int) < g.g_enclave_thread_num ∧
      g.g_enclave_thread_map[k]? = some e ∧
      g1 = { g with g_enclave_thread_map :=
                      g.g_enclave_thread_map.set k { e with tid := 0 } } ∧
      tcb1 = { tcb with tcs := 0 } ∧ tcs_index g tcb.tcs = k := by
  unfold unmap_tcs at h
  simp only at h
  split at h
  · next hlt =>
    by_cases h0 : 0 ≤ tcs_index g tcb.tcs
    · obtain ⟨k, hk⟩ := Int.eq_ofNat_of_zero_le h0
      rw [hk] at h hlt
      cases hget : g.g_enclave_thread_map[k]? with
      | none => rw [entry_at_none hget] at h; simp at h
      | some e =>
        rw [entry_at_some hget] at h
        simp only [Int.toNat_ofNat, Except.ok.injEq, Prod.mk.injEq] at h
        exact ⟨k, e, hlt, hget, h.1.symm, h.2.symm, hk⟩
    · rw [entry_at_neg _ (by omega)] at h; simp at h
  · simp at h

theorem WF_of_Reachable {tcs_base thread_num : Nat} {g : TcsMapper}
    (h : Reachable tcs_base thread_num g) : WF tcs_base thread_num g := by
  induction h with
  | create => exact WF_create _ _
  | @map_tcs g g1 tcb tcb1 tid _ hstep ih =>
    rcases map_tcs_cases ih tcb tid with ⟨k, e, hk, hke, _, _, heq⟩ | ⟨_, heq⟩
    · rw [heq] at hstep
      simp only [Except.ok.injEq, Prod.mk.injEq] at hstep
      rw [← hstep.1]
      exact WF_set ih k e hke tid (fun hle => by omega)
    · rw [heq] at hstep
      simp only [Except.ok.injEq, Prod.mk.injEq] at hstep
      rw [← hstep.1]; exact ih
  | @unmap_tcs g g1 tcb tcb1 _ hstep ih =>
    obtain ⟨k, e, _, hke, hg, _, _⟩ := unmap_tcs_ok hstep
    rw [hg]
    exact WF_set ih k e hke 0 (fun _ => rfl)

/-! ## C1: first-fit bind -/

theorem toInt32_toNat_of_lt (n : Nat) (h : n < 2147483648) : (toInt32 n).toNat = n := by
  rw [toInt32_of_lt _ (by omega) (by omega)]; simp

theorem countP_set_add {α : Type} (p : α → Bool) (a b : α) :
    ∀ (l : List α) (i : Nat), l[i]? = some b →
      List.countP p (l.set i a) + (if p b then 1 else 0)
        = List.countP p l + (if p a then 1 else 0) := by
  intro l
  induction l with
  | nil => intro i h; simp at h
  | cons x xs ih =>
    intro i h
    cases i with
    | zero =>
      simp only [List.getElem?_cons_zero, Option.some.injEq] at h
      subst h
      simp only [List.set_cons_zero, List.countP_cons]
      omega
    | succ i =>
      simp only [List.getElem?_cons_succ] at h
      have := ih i h
      simp only [List.set_cons_succ, List.countP_cons]
      omega

theorem countP_set_gain {α : Type} (p : α → Bool) (a b : α) (hb : p b = false)
    (ha : p a = true) (l : List α) (i : Nat) (h : l[i]? = some b) :
    List.countP p (l.set i a) = List.countP p l + 1 := by
  have := countP_set_add p a b l i h
  rw [ha, hb] at this
  simpa using this

theorem countP_set_loss {α : Type} (p : α → Bool) (a b : α) (hb : p b = true)
    (ha : p a = false) (l : List α) (i : Nat) (h : l[i]? = some b) :
    List.countP p (l.set i a) + 1 = List.countP p l := by
  have := countP_set_add p a b l i h
  rw [ha, hb] at this
  simpa using this

theorem bound_cnt_le {tcs_base thread_num : Nat} {g : TcsMapper}
    (h : WF tcs_base thread_num g) : bound_cnt g ≤ thread_num := by
  have hle : bound_cnt g ≤ g.g_enclave_thread_map.length := List.countP_le_length _
  rw [h.len] at hle; exact hle

theorem WF_getElem {tcs_base thread_num : Nat} {g : TcsMapper}
    (h : WF tcs_base thread_num g) (i : Nat) (hi : i < thread_num) :
    ∃ e : thread_map, g.g_enclave_thread_map[i]? = some e ∧ e.tcs = tcs_base + i := by
  have hilen : i < g.g_enclave_thread_map.length := by rw [h.len]; exact hi
  exact ⟨_, List.getElem?_eq_getElem hilen, h.slot i _ (List.getElem?_eq_getElem hilen)⟩

/-- Calls of other threads on other entries run to their end and keep the table well
formed. -/
theorem exec_other_entries {tcs_base thread_num : Nat} (hC : thread_num < 2147483648)
    (i : Nat) : ∀ (ops : List Op) (g : TcsMapper), WF tcs_base thread_num g →
      (∀ op ∈ ops, op.on_other_entry tcs_base thread_num i) →
      ∃ g2, exec g ops = .ok g2 ∧ WF tcs_base thread_num g2 := by
  have hn := toInt32_toNat_of_lt thread_num hC
  intro ops
  induction ops with
  | nil => intro g h _; exact ⟨g, rfl, h⟩
  | cons op ops ih =>
    intro g h hops
    have hrest : ∀ op1 ∈ ops, op1.on_other_entry tcs_base thread_num i :=
      fun op1 h1 => hops op1 (List.mem_cons_of_mem _ h1)
    have hop := hops op (List.mem_cons_self _ _)
    cases op with
    | map_tcs tcb tid =>
      rcases map_tcs_cases h tcb tid with ⟨k, e, hk, hke, _, _, heq⟩ | ⟨_, heq⟩
      · have hwf1 := WF_set h k e hke tid (fun hle => by omega)
        obtain ⟨g2, h2, hwf2⟩ := ih _ hwf1 hrest
        exact ⟨g2, by simp only [exec, Op.apply, heq, h2], hwf2⟩
      · obtain ⟨g2, h2, hwf2⟩ := ih _ h hrest
        exact ⟨g2, by simp only [exec, Op.apply, heq, h2], hwf2⟩
    | unmap_tcs tcb =>
      obtain ⟨j, hj, _, hslot⟩ := hop
      obtain ⟨e, hje, _⟩ := WF_getElem h j hj
      have heq := unmap_tcs_slot h tcb j (by omega) e hje hslot
      have hwf1 := WF_set h j e hje 0 (fun _ => rfl)
      obtain ⟨g2, h2, hwf2⟩ := ih _ hwf1 hrest
      exact ⟨g2, by simp only [exec, Op.apply, heq, h2], hwf2⟩

theorem set_set_self {α : Type} (l : List α) (i : Nat) (a b : α) (h : l[i]? = some b) :
    (l.set i a).set i b = l := by
  apply List.ext_getElem?
  intro n
  rw [List.set_set, List.getElem?_set]
  split
  · next hin =>
    subst hin
    rcases List.getElem?_eq_some.mp h with ⟨hlen, _⟩
    simp [hlen, h]
  · rfl

/-- C3. From a table `S` reachable from `create_tcs_mapper tcs_base thread_num` (non-NULL
base, a count the `int` global holds), let a thread holding no slot obtain slot
`tcs_base + i` by `map_tcs(t)`; after any sequence `ops` of calls of other threads on
other entries, that sequence and the thread's `unmap_tcs()` both return, entry `i` is
again as in `S` (unbound, slot `tcs_base + i`), the thread's `tcb->tcs` is `NULL`, and
with no interleaved call the whole table equals `S`. -/
theorem map_unmap_round_trip (tcs_base thread_num : Nat) (S S1 : TcsMapper)
    (tcb tcb1 : PAL_TCB_URTS) (t i : Nat) (ops : List Op)
    (hb : 0 < tcs_base) (hC : thread_num < 2147483648)
    (hr : Reachable tcs_base thread_num S) (hnull : tcb.tcs = 0)
    (hmap : map_tcs S tcb t = .ok (S1, tcb1)) (hgot : tcb1.tcs = tcs_base + i)
    (hops : ∀ op ∈ ops, op.on_other_entry tcs_base thread_num i) :
    ∃ (S2 S3 : TcsMapper) (tcb3 : PAL_TCB_URTS),
      exec S1 ops = .ok S2 ∧ unmap_tcs S2 tcb1 = .ok (S3, tcb3) ∧
      S.g_enclave_thread_map[i]? = some ⟨0, tcs_base + i⟩ ∧
      S1.g_enclave_thread_map[i]? = some ⟨t, tcs_base + i⟩ ∧
      S3.g_enclave_thread_map[i]? = S.g_enclave_thread_map[i]? ∧
      tcb3.tcs = 0 ∧ (ops = [] → S3 = S) := by
  have hwf := WF_of_Reachable hr
  have hn := toInt32_toNat_of_lt thread_num hC
  rcases map_tcs_cases hwf tcb t with ⟨k, e, hk, hke, he, _, heq⟩ | ⟨_, heq⟩
  · rw [heq] at hmap
    simp only [Except.ok.injEq, Prod.mk.injEq] at hmap
    obtain ⟨hS1, htcb1⟩ := hmap
    have hki : k = i := by
      have := congrArg PAL_TCB_URTS.tcs htcb1
      simp only at this
      omega
    subst hki
    have hklen : k < S.g_enclave_thread_map.length := by rw [hwf.len]; omega
    have hslot := hwf.slot k e hke
    have he_eq : e = ⟨0, tcs_base + k⟩ := by
      cases e; simp only at he hslot; subst he hslot; rfl
    have hwf1 : WF tcs_base thread_num S1 := by
      rw [← hS1]; exact WF_set hwf k e hke t (fun hle => by omega)
    obtain ⟨S2, hexec, hwf2⟩ := exec_other_entries hC k ops S1 hwf1 hops
    obtain ⟨e2, hk2, hslot2⟩ := WF_getElem hwf2 k (by omega)
    have hun := unmap_tcs_slot hwf2 tcb1 k (by omega) e2 hk2 hgot
    have hk2len : k < S2.g_enclave_thread_map.length := by rw [hwf2.len]; omega
    refine ⟨S2, _, _, hexec, hun, ?_, ?_, ?_, rfl, ?_⟩
    · rw [hke, he_eq]
    · rw [← hS1]
      simp only [List.getElem?_set, hklen, if_true]
      rw [hslot]
    · simp only [List.getElem?_set, hk2len, if_true]
      rw [hke, he_eq, hslot2]
    · intro hnil
      subst hnil
      simp only [exec, Except.ok.injEq] at hexec
      subst hexec
      rw [← hS1] at hk2
      simp only [List.getElem?_set, hklen, if_true, Option.some.injEq] at hk2
      subst hk2
      rw [← hS1]
      simp only
      have hzero : ({ tid := 0, tcs := e.tcs } : thread_map) = e := by
        cases e; simp only at he; subst he; rfl
      rw [hzero, set_set_self _ _ _ _ hke]
  · exfalso
    rw [heq] at hmap
    simp only [Except.ok.injEq, Prod.mk.injEq] at hmap
    have := congrArg PAL_TCB_URTS.tcs hmap.2
    omega

/-- C3 at a fresh table of three slots at base 16: thread 7 binds entry 0, thread 8
binds and unbinds entry 1 in between, thread 7 unbinds; entry 0 is as at the start. -/
theorem map_unmap_round_trip_witness :
    ∃ (S2 S3 : TcsMapper) (tcb3 : PAL_TCB_URTS),
      exec ⟨16, 3, [⟨7, 16⟩, ⟨0, 17⟩, ⟨0, 18⟩]⟩
          [.map_tcs tcb0 8, .unmap_tcs { tcb0 with tcs := 17 }] = .ok S2 ∧
      unmap_tcs S2 { tcb0 with tcs := 16 } = .ok (S3, tcb3) ∧
      (create_tcs_mapper 16 3).g_enclave_thread_map[0]? = some ⟨0, 16 + 0⟩ ∧
      (⟨16, 3, [⟨7, 16⟩, ⟨0, 17⟩, ⟨0, 18⟩]⟩ : TcsMapper).g_enclave_thread_map[0]?
        = some ⟨7, 16 + 0⟩ ∧
      S3.g_enclave_thread_map[0]? = (create_tcs_mapper 16 3).g_enclave_thread_map[0]? ∧
      tcb3.tcs = 0 ∧
      ([Op.map_tcs tcb0 8, Op.unmap_tcs { tcb0 with tcs := 17 }] = [] →
        S3 = create_tcs_mapper 16 3) :=
  map_unmap_round_trip 16 3 (create_tcs_mapper 16 3) ⟨16, 3, [⟨7, 16⟩, ⟨0, 17⟩, ⟨0, 18⟩]⟩
    tcb0 { tcb0 with tcs := 16 } 7 0 [.map_tcs tcb0 8, .unmap_tcs { tcb0 with tcs := 17 }]
    (by decide) (by decide) Reachable.create rfl (by decide) rfl
    (by
      intro op hop
      simp only [List.mem_cons, List.mem_singleton, List.not_mem_nil, or_false] at hop
      rcases hop with rfl | rfl
      · trivial
      · exact ⟨1, by decide, by decide, rfl⟩)

/-! ## C4 and C5: the invariant of executions that follow the calling pattern -/

theorem getElem?_set_some {α : Type} (l : List α) (k : Nat) (a b : α) (h : l[k]? = some b)
    (n : Nat) : (l.set k a)[n]? = if k = n then some a else l[n]? := by
  rcases List.getElem?_eq_some.mp h with ⟨hlen, _⟩
  rw [List.getElem?_set]
  simp [hlen]

theorem set_self {α : Type} (l : List α) (k : Nat) (b : α) (h : l[k]? = some b) :
    l.set k b = l := by
  apply List.ext_getElem?
  intro n
  rw [getElem?_set_some l k b b h]
  split
  · next hkn => subst hkn; exact h.symm
  · rfl

theorem SysInv_start (tcs_base thread_num : Nat) (threads : List Thread)
    (hfresh : fresh_threads threads) :
    SysInv tcs_base thread_num (Sys.start tcs_base thread_num threads) := by
  obtain ⟨hnodup, hall⟩ := hfresh
  have hzero : ∀ (k : Nat) (th : Thread), threads[k]? = some th → th.tid ≠ 0 ∧ th.tcb.tcs = 0 :=
    fun k th h => hall th (List.getElem?_mem h)
  refine ⟨WF_create _ _, ?_, fun k th h => (hzero k th h).1, ?_, ?_, ?_⟩
  · intro k1 k2 th1 th2 h1 h2 htid
    simp only [Sys.start] at h1 h2
    have hk1 : k1 < (threads.map fun th => th.tid).length := by
      rcases List.getElem?_eq_some.mp h1 with ⟨hlen, _⟩
      simpa using hlen
    apply List.getElem?_inj hk1 hnodup
    simp only [List.getElem?_map, h1, h2, Option.map_some', htid]
  · intro k th h hne
    exact absurd (hzero k th h).2 hne
  · intro i e h hne
    exfalso
    apply hne
    simp only [Sys.start, create_tcs_mapper, List.getElem?_map] at h
    by_cases hi : i < thread_num
    · rw [List.getElem?_range hi] at h
      simp at h; subst h; rfl
    · rw [List.getElem?_eq_none (by simpa using hi)] at h
      simp at h
  · have h1 : bound_cnt (Sys.start tcs_base thread_num threads).g = 0 := by
      simp [bound_cnt, Sys.start, create_tcs_mapper, List.countP_eq_zero]
    have h2 : (Sys.start tcs_base thread_num threads).holders = 0 := by
      simp only [Sys.holders, Sys.start, List.countP_eq_zero]
      intro th hth
      simp [(hall th hth).2]
    rw [h1, h2]

/-- A thread read after the control block of thread `k` was replaced: the same thread
id is at that position before, and only position `k` has a new control block. -/
theorem thread_set_old (l : List Thread) (k : Nat) (th : Thread) (tcb1 : PAL_TCB_URTS)
    (hth : l[k]? = some th) (n : Nat) (th1 : Thread)
    (h : (l.set k { th with tcb := tcb1 })[n]? = some th1) :
    ∃ th0 : Thread, l[n]? = some th0 ∧ th0.tid = th1.tid ∧
      ((n = k ∧ th0 = th ∧ th1.tcb = tcb1) ∨ (n ≠ k ∧ th1 = th0)) := by
  rw [getElem?_set_some l k _ th hth] at h
  split at h
  · next hkn =>
    subst hkn
    simp only [Option.some.injEq] at h
    subst h
    exact ⟨th, hth, rfl, Or.inl ⟨rfl, rfl, rfl⟩⟩
  · next hkn => exact ⟨th1, h, rfl, Or.inr ⟨fun hnk => hkn hnk.symm, rfl⟩⟩

/-- One call that follows the calling pattern returns and keeps the invariant. -/
theorem SysInv_step {tcs_base thread_num : Nat} (hb : 0 < tcs_base) {s : Sys}
    (hinv : SysInv tcs_base thread_num s) (c : Call) (hc : c.in_order s = true) :
    ∃ s1, s.step c = .ok s1 ∧ SysInv tcs_base thread_num s1 := by
  cases c with
  | map k =>
    simp only [Call.in_order] at hc
    cases hth : s.threads[k]? with
    | none => rw [hth] at hc; simp at hc
    | some th =>
      rw [hth] at hc
      have hnull : th.tcb.tcs = 0 := by simpa using hc
      have hthnz := hinv.nonzero k th hth
      rcases map_tcs_cases hinv.wf th.tcb th.tid with ⟨i, e, hi, hie, he, _, heq⟩ | ⟨_, heq⟩
      · have hstep : s.step (.map k) = .ok
            { g := { s.g with g_enclave_thread_map :=
                       s.g.g_enclave_thread_map.set i { e with tid := th.tid } }
              threads := s.threads.set k
                { th with tcb := { th.tcb with tcs := tcs_base + i } } } := by
          simp only [Sys.step, hth, heq]
        refine ⟨_, hstep, ?_⟩
        have hgetm := getElem?_set_some s.g.g_enclave_thread_map i { e with tid := th.tid } e hie
        have hgett := getElem?_set_some s.threads k
          { th with tcb := { th.tcb with tcs := tcs_base + i } } th hth
        refine ⟨WF_set hinv.wf i e hie th.tid (fun hle => by omega), ?_, ?_, ?_, ?_, ?_⟩
        · intro k1 k2 th1 th2 h1 h2 htid
          obtain ⟨a1, ha1, hat1, _⟩ := thread_set_old _ _ _ _ hth k1 th1 h1
          obtain ⟨a2, ha2, hat2, _⟩ := thread_set_old _ _ _ _ hth k2 th2 h2
          exact hinv.inj k1 k2 a1 a2 ha1 ha2 (by omega)
        · intro k1 th1 h1
          obtain ⟨a1, ha1, hat1, _⟩ := thread_set_old _ _ _ _ hth k1 th1 h1
          have := hinv.nonzero k1 a1 ha1
          omega
        · intro k1 th1 h1 hne
          obtain ⟨a1, ha1, hat1, hcase⟩ := thread_set_old _ _ _ _ hth k1 th1 h1
          rcases hcase with ⟨_, ha, htcb⟩ | ⟨_, hsame⟩
          · refine ⟨i, { e with tid := th.tid }, hi, by rw [htcb], ?_, ?_⟩
            · simp only [hgetm, if_true]
            · subst ha; exact hat1
          · subst hsame
            obtain ⟨i1, e1, hi1, hs1, hie1, hte1⟩ := hinv.held k1 th1 ha1 hne
            have hii : i ≠ i1 := by
              intro hii; subst hii
              rw [hie] at hie1
              simp only [Option.some.injEq] at hie1
              subst hie1
              have := hinv.nonzero k1 th1 ha1
              omega
            refine ⟨i1, e1, hi1, hs1, ?_, hte1⟩
            simp only [hgetm, hii, if_false, hie1]
        · intro i1 e1 h1 hne
          simp only [hgetm] at h1
          split at h1
          · next hii =>
            subst hii
            simp only [Option.some.injEq] at h1
            subst h1
            exact ⟨k, { th with tcb := { th.tcb with tcs := tcs_base + i } },
              (hgett k).trans (if_pos rfl), rfl, rfl⟩
          · next hii =>
            obtain ⟨k1, th1, hk1, ht1, hs1⟩ := hinv.owner i1 e1 h1 hne
            have hkk : k ≠ k1 := by
              intro hkk; subst hkk
              rw [hth] at hk1
              simp only [Option.some.injEq] at hk1
              subst hk1
              omega
            exact ⟨k1, th1, by simp only [hgett, hkk, if_false, hk1], ht1, hs1⟩
        · have hpos : tcs_base + i ≠ 0 := by omega
          have hc1 := countP_set_gain (fun e : thread_map => decide (e.tid ≠ 0))
            { e with tid := th.tid } e (by simp [he]) (by simp [hthnz])
            s.g.g_enclave_thread_map i hie
          have hc2 := countP_set_gain (fun t : Thread => decide (t.tcb.tcs ≠ 0))
            { th with tcb := { th.tcb with tcs := tcs_base + i } } th (by simp [hnull])
            (by simp [hpos]) s.threads k hth
          have hcnt := hinv.count
          simp only [bound_cnt, Sys.holders] at hcnt hc1 hc2 ⊢
          omega
      · refine ⟨s, ?_, hinv⟩
        simp only [Sys.step, hth, heq]
        have : s.threads.set k { th with tcb := th.tcb } = s.threads := set_self _ _ _ hth
        rw [this]
  | unmap k =>
    simp only [Call.in_order] at hc
    cases hth : s.threads[k]? with
    | none => rw [hth] at hc; simp at hc
    | some th =>
      rw [hth] at hc
      have hnn : th.tcb.tcs ≠ 0 := by simpa using hc
      have hthnz := hinv.nonzero k th hth
      obtain ⟨i, e, hi, hslot, hie, hte⟩ := hinv.held k th hth hnn
      have heq := unmap_tcs_slot hinv.wf th.tcb i hi e hie hslot
      have hstep : s.step (.unmap k) = .ok
          { g := { s.g with g_enclave_thread_map :=
                     s.g.g_enclave_thread_map.set i { e with tid := 0 } }
            threads := s.threads.set k { th with tcb := { th.tcb with tcs := 0 } } } := by
        simp only [Sys.step, hth, heq]
      refine ⟨_, hstep, ?_⟩
      have hgetm := getElem?_set_some s.g.g_enclave_thread_map i { e with tid := 0 } e hie
      have hgett := getElem?_set_some s.threads k
        { th with tcb := { th.tcb with tcs := 0 } } th hth
      refine ⟨WF_set hinv.wf i e hie 0 (fun _ => rfl), ?_, ?_, ?_, ?_, ?_⟩
      · intro k1 k2 th1 th2 h1 h2 htid
        obtain ⟨a1, ha1, hat1, _⟩ := thread_set_old _ _ _ _ hth k1 th1 h1
        obtain ⟨a2, ha2, hat2, _⟩ := thread_set_old _ _ _ _ hth k2 th2 h2
        exact hinv.inj k1 k2 a1 a2 ha1 ha2 (by omega)
      · intro k1 th1 h1
        obtain ⟨a1, ha1, hat1, _⟩ := thread_set_old _ _ _ _ hth k1 th1 h1
        have := hinv.nonzero k1 a1 ha1
        omega
      · intro k1 th1 h1 hne
        obtain ⟨a1, ha1, hat1, hcase⟩ := thread_set_old _ _ _ _ hth k1 th1 h1
        rcases hcase with ⟨_, _, htcb⟩ | ⟨hk1, hsame⟩
        · exfalso; apply hne; rw [htcb]
        · subst hsame
          obtain ⟨i1, e1, hi1, hs1, hie1, hte1⟩ := hinv.held k1 th1 ha1 hne
          have hii : i ≠ i1 := by
            intro hii; subst hii
            rw [hie] at hie1
            simp only [Option.some.injEq] at hie1
            subst hie1
            exact hk1 (hinv.inj k1 k th1 th ha1 hth (by omega))
          refine ⟨i1, e1, hi1, hs1, ?_, hte1⟩
          simp only [hgetm, hii, if_false, hie1]
      · intro i1 e1 h1 hne
        simp only [hgetm] at h1
        split at h1
        · next hii =>
          simp only [Option.some.injEq] at h1
          subst h1
          exact absurd rfl hne
        · next hii =>
          obtain ⟨k1, th1, hk1, ht1, hs1⟩ := hinv.owner i1 e1 h1 hne
          have hkk : k ≠ k1 := by
            intro hkk; subst hkk
            rw [hth] at hk1
            simp only [Option.some.injEq] at hk1
            subst hk1
            omega
          exact ⟨k1, th1, by simp only [hgett, hkk, if_false, hk1], ht1, hs1⟩
      · have hez : e.tid ≠ 0 := by omega
        have hc1 := countP_set_loss (fun e : thread_map => decide (e.tid ≠ 0))
          { e with tid := 0 } e (by simp [hez]) (by simp) s.g.g_enclave_thread_map i hie
        have hc2 := countP_set_loss (fun t : Thread => decide (t.tcb.tcs ≠ 0))
          { th with tcb := { th.tcb with tcs := 0 } } th (by simp [hnn]) (by simp)
          s.threads k hth
        have hcnt := hinv.count
        simp only [bound_cnt, Sys.holders] at hcnt hc1 hc2 ⊢
        omega

/-- A sequence of calls that follows the calling pattern returns and keeps the
invariant. -/
theorem SysInv_run {tcs_base thread_num : Nat} (hb : 0 < tcs_base) :
    ∀ (calls : List Call) (s : Sys), SysInv tcs_base thread_num s →
      s.in_order calls = true → ∃ s1, s.run calls = .ok s1 ∧ SysInv tcs_base thread_num s1 := by
  intro calls
  induction calls with
  | nil => intro s h _; exact ⟨s, rfl, h⟩
  | cons c cs ih =>
    intro s h hord
    simp only [Sys.in_order, Bool.and_eq_true] at hord
    obtain ⟨s1, hstep, hinv1⟩ := SysInv_step hb h c hord.1
    have hrest := hord.2
    rw [hstep] at hrest
    obtain ⟨s2, hrun, hinv2⟩ := ih s1 hinv1 hrest
    exact ⟨s2, by simp only [Sys.run, hstep, hrun], hinv2⟩

/-! ## C4: uniqueness of thread ids in the table -/

/-- C4 as stated fails: `map_tcs` has no test for a caller that already holds a slot, so
when thread 7 calls `map_tcs(7)` twice on a fresh table of two slots, both entries hold
thread id 7; the resulting table is reachable and violates uniqueness. -/
theorem unique_tid_any_sequence_counterexample :
    (Sys.start 16 2 [⟨7, tcb0⟩]).run [.map 0, .map 0]
      = .ok ⟨⟨16, 2, [⟨7, 16⟩, ⟨7, 17⟩]⟩, [⟨7, { tcb0 with tcs := 17 }⟩]⟩ ∧
    ¬ (∀ g : TcsMapper, Reachable 16 2 g →
        ∀ (i j : Nat) (ei ej : thread_map), g.g_enclave_thread_map[i]? = some ei →
          g.g_enclave_thread_map[j]? = some ej → ei.tid ≠ 0 → ei.tid = ej.tid → i = j) := by
  refine ⟨by decide, ?_⟩
  intro hall
  have hreach : Reachable 16 2 ⟨16, 2, [⟨7, 16⟩, ⟨7, 17⟩]⟩ :=
    @Reachable.map_tcs 16 2 ⟨16, 2, [⟨7, 16⟩, ⟨0, 17⟩]⟩ _ { tcb0 with tcs := 16 }
      { tcb0 with tcs := 17 } 7
      (@Reachable.map_tcs 16 2 _ _ tcb0 { tcb0 with tcs := 16 } 7 Reachable.create
        (by decide))
      (by decide)
  have := hall _ hreach 0 1 ⟨7, 16⟩ ⟨7, 17⟩ rfl rfl (by decide) rfl
  omega

/-- C4, amended. Start from `create_tcs_mapper tcs_base thread_num` with a non-NULL
base and threads of distinct nonzero ids holding no slot, and let the calls follow the
calling pattern of `pal_thread_init` (`map_tcs(own id)` only by a thread whose
`tcb->tcs` is `NULL`, `unmap_tcs()` only by a thread whose `tcb->tcs` is not `NULL`).
Then every call returns, and in the state reached no two entries hold the same nonzero
thread id, and the slot of an entry is in some thread's `tcb->tcs` if and only if the
entry's `tid` is nonzero. -/
theorem unique_tid_in_order (tcs_base thread_num : Nat) (threads : List Thread)
    (calls : List Call) (hb : 0 < tcs_base) (hfresh : fresh_threads threads)
    (hord : (Sys.start tcs_base thread_num threads).in_order calls = true) :
    ∃ s : Sys, (Sys.start tcs_base thread_num threads).run calls = .ok s ∧
      (∀ (i j : Nat) (ei ej : thread_map), s.g.g_enclave_thread_map[i]? = some ei →
        s.g.g_enclave_thread_map[j]? = some ej → ei.tid ≠ 0 → ei.tid = ej.tid → i = j) ∧
      (∀ (i : Nat) (e : thread_map), s.g.g_enclave_thread_map[i]? = some e →
        (e.tid ≠ 0 ↔ ∃ th ∈ s.threads, th.tcb.tcs = e.tcs)) := by
  obtain ⟨s, hrun, hinv⟩ :=
    SysInv_run hb calls _ (SysInv_start tcs_base thread_num threads hfresh) hord
  refine ⟨s, hrun, ?_, ?_⟩
  · intro i j ei ej hi hj hne heq
    obtain ⟨k1, th1, hk1, ht1, hs1⟩ := hinv.owner i ei hi hne
    obtain ⟨k2, th2, hk2, ht2, hs2⟩ := hinv.owner j ej hj (by omega)
    have hkk := hinv.inj k1 k2 th1 th2 hk1 hk2 (by omega)
    subst hkk
    rw [hk1] at hk2
    simp only [Option.some.injEq] at hk2
    subst hk2
    omega
  · intro i e hi
    have hslot := hinv.wf.slot i e hi
    constructor
    · intro hne
      obtain ⟨k, th, hk, _, hs⟩ := hinv.owner i e hi hne
      exact ⟨th, List.getElem?_mem hk, by omega⟩
    · rintro ⟨th, hmem, hs⟩
      obtain ⟨k, hk⟩ := List.getElem?_of_mem hmem
      obtain ⟨i1, e1, _, hs1, hie1, hte1⟩ := hinv.held k th hk (by omega)
      have hii : i1 = i := by omega
      subst hii
      rw [hi] at hie1
      simp only [Option.some.injEq] at hie1
      subst hie1
      have := hinv.nonzero k th hk
      omega

/-- C4 amended, at two threads 7 and 8 on a table of two slots at base 16: both bind,
then thread 7 unbinds. -/
theorem unique_tid_in_order_witness :
    ∃ s : Sys, (Sys.start 16 2 [⟨7, tcb0⟩, ⟨8, tcb0⟩]).run [.map 0, .map 1, .unmap 0] = .ok s ∧
      (∀ (i j : Nat) (ei ej : thread_map), s.g.g_enclave_thread_map[i]? = some ei →
        s.g.g_enclave_thread_map[j]? = some ej → ei.tid ≠ 0 → ei.tid = ej.tid → i = j) ∧
      (∀ (i : Nat) (e : thread_map), s.g.g_enclave_thread_map[i]? = some e →
        (e.tid ≠ 0 ↔ ∃ th ∈ s.threads, th.tcb.tcs = e.tcs)) :=
  unique_tid_in_order 16 2 [⟨7, tcb0⟩, ⟨8, tcb0⟩] [.map 0, .map 1, .unmap 0] (by decide)
    ⟨by decide, by decide⟩ (by decide)

/-! ## C5: the count of bound entries -/

/-- The loop of `current_enclave_thread_cnt` adds to `ret` the number of bound entries
among the `n` entries from index `i` on. -/
theorem thread_cnt_loop_eq (m : List thread_map) :
    ∀ (n i : Nat) (ret : Int), i + n ≤ m.length →
      thread_cnt_loop m n i ret
        = .ok (ret + (((m.drop i).take n).countP fun e => e.tid ≠ 0 : Nat)) := by
  intro n
  induction n with
  | zero => intro i ret _; simp [thread_cnt_loop]
  | succ n ih =>
    intro i ret hlen
    have hi : i < m.length := by omega
    have hget : m[i]? = some m[i] := List.getElem?_eq_getElem hi
    rw [thread_cnt_loop, entry_at_some hget]
    simp only
    rw [ih (i + 1) _ (by omega), List.drop_eq_getElem_cons hi, List.take_succ_cons,
      List.countP_cons]
    by_cases h0 : (m[i]).tid = 0
    · simp [h0]
    · simp only [ne_eq, h0, not_false_eq_true, if_true, decide_True]
      push_cast
      ring_nf

/-- On a well-formed table `current_enclave_thread_cnt` returns the number of bound
entries. -/
theorem current_enclave_thread_cnt_eq {tcs_base thread_num : Nat} {g : TcsMapper}
    (h : WF tcs_base thread_num g) :
    current_enclave_thread_cnt g = .ok (bound_cnt g : Int) := by
  have hn : (toInt32 thread_num).toNat ≤ g.g_enclave_thread_map.length := by
    rw [h.len]; exact toInt32_toNat_le _
  have hloop := thread_cnt_loop_eq g.g_enclave_thread_map (toInt32 thread_num).toNat 0 0
    (by omega)
  have hsplit : bound_cnt g
      = ((g.g_enclave_thread_map.take (toInt32 thread_num).toNat).countP fun e => e.tid ≠ 0)
        + ((g.g_enclave_thread_map.drop (toInt32 thread_num).toNat).countP
            fun e => e.tid ≠ 0) := by
    unfold bound_cnt
    rw [← List.countP_append, List.take_append_drop]
  have hrest : ((g.g_enclave_thread_map.drop (toInt32 thread_num).toNat).countP
      fun e => e.tid ≠ 0) = 0 := by
    rw [List.countP_eq_zero]
    intro a ha
    obtain ⟨j, hj⟩ := List.getElem?_of_mem ha
    rw [List.getElem?_drop] at hj
    have := h.rest _ a hj (by omega)
    simp [this]
  unfold current_enclave_thread_cnt
  rw [h.num, hloop, hsplit, hrest]
  simp

/-- C5 as stated fails: after thread 5 has called `map_tcs(5)` twice on a fresh table
of three slots, `current_enclave_thread_cnt()` returns 2 while one thread holds a slot. -/
theorem thread_cnt_holders_counterexample :
    ∃ s : Sys, (Sys.start 32 3 [⟨5, tcb0⟩]).run [.map 0, .map 0] = .ok s ∧
      Reachable 32 3 s.g ∧ current_enclave_thread_cnt s.g = .ok 2 ∧ s.holders = 1 := by
  refine ⟨⟨⟨32, 3, [⟨5, 32⟩, ⟨5, 33⟩, ⟨0, 34⟩]⟩, [⟨5, { tcb0 with tcs := 33 }⟩]⟩,
    by decide, ?_, by decide, by decide⟩
  exact @Reachable.map_tcs 32 3 ⟨32, 3, [⟨5, 32⟩, ⟨0, 33⟩, ⟨0, 34⟩]⟩ _
    { tcb0 with tcs := 32 } { tcb0 with tcs := 33 } 5
    (@Reachable.map_tcs 32 3 _ _ tcb0 { tcb0 with tcs := 32 } 5 Reachable.create (by decide))
    (by decide)

/-- C5, amended. In every table reachable from `create_tcs_mapper tcs_base thread_num`
by `map_tcs` and `unmap_tcs` calls, `current_enclave_thread_cnt()` returns the number of
entries with nonzero `tid`, and that number is at most `thread_num` (the function has no
write to the table). When the base is non-NULL, the threads start with distinct nonzero
ids and no slot, and the calls follow the calling pattern of `pal_thread_init`, every
call returns and the number returned equals the number of threads that hold a slot. -/
theorem thread_cnt_bound (tcs_base thread_num : Nat) :
    (∀ g : TcsMapper, Reachable tcs_base thread_num g →
      current_enclave_thread_cnt g = .ok (bound_cnt g : Int) ∧ bound_cnt g ≤ thread_num) ∧
    (0 < tcs_base → ∀ (threads : List Thread) (calls : List Call), fresh_threads threads →
      (Sys.start tcs_base thread_num threads).in_order calls = true →
      ∃ s : Sys, (Sys.start tcs_base thread_num threads).run calls = .ok s ∧
        current_enclave_thread_cnt s.g = .ok (s.holders : Int) ∧
        bound_cnt s.g = s.holders ∧ s.holders ≤ thread_num) := by
  constructor
  · intro g hr
    have hwf := WF_of_Reachable hr
    exact ⟨current_enclave_thread_cnt_eq hwf, bound_cnt_le hwf⟩
  · intro hb threads calls hfresh hord
    obtain ⟨s, hrun, hinv⟩ :=
      SysInv_run hb calls _ (SysInv_start tcs_base thread_num threads hfresh) hord
    refine ⟨s, hrun, ?_, hinv.count, ?_⟩
    · rw [current_enclave_thread_cnt_eq hinv.wf, hinv.count]
    · rw [← hinv.count]; exact bound_cnt_le hinv.wf

/-- C5 amended, at threads 5, 6, 9 on a table of two slots at base 32: 5 and 6 bind, 9
finds the table full, 5 unbinds and 9 binds; two threads hold a slot and the count is 2. -/
theorem thread_cnt_bound_witness :
    (current_enclave_thread_cnt ⟨32, 2, [⟨5, 32⟩, ⟨0, 33⟩]⟩ = .ok 1) ∧
    ∃ s : Sys, (Sys.start 32 2 [⟨5, tcb0⟩, ⟨6, tcb0⟩, ⟨9, tcb0⟩]).run
        [.map 0, .map 1, .map 2, .unmap 0, .map 2] = .ok s ∧
      current_enclave_thread_cnt s.g = .ok (s.holders : Int) ∧
      bound_cnt s.g = s.holders ∧ s.holders ≤ 2 :=
  ⟨((thread_cnt_bound 32 2).1 ⟨32, 2, [⟨5, 32⟩, ⟨0, 33⟩]⟩
      (@Reachable.map_tcs 32 2 _ _ tcb0 { tcb0 with tcs := 32 } 5 Reachable.create
        (by decide))).1,
    (thread_cnt_bound 32 2).2 (by decide) [⟨5, tcb0⟩, ⟨6, tcb0⟩, ⟨9, tcb0⟩]
      [.map 0, .map 1, .map 2, .unmap 0, .map 2] ⟨by decide, by decide⟩ (by decide)⟩

/-! ## C6: reverse lookup -/

/-- C6, the code at a failing input. The table has two slots at base 16 and the slot
reference 15 lies one slot below the base: the index is `-1`, the only test before the
read is `index >= g_enclave_thread_num`, and `map->tid` is read at index `-1`, outside
the array, where the claim has `-EINVAL` and no read. Slots of the array and references
at or past its end behave as claimed. -/
theorem get_tid_from_tcs_below_base :
    tcs_index ⟨16, 2, [⟨7, 16⟩, ⟨0, 17⟩]⟩ 15 = -1 ∧
    get_tid_from_tcs ⟨16, 2, [⟨7, 16⟩, ⟨0, 17⟩]⟩ 15 = .error (.out_of_bounds (-1)) ∧
    get_tid_from_tcs ⟨16, 2, [⟨7, 16⟩, ⟨0, 17⟩]⟩ 15 ≠ .ok (-EINVAL) ∧
    get_tid_from_tcs ⟨16, 2, [⟨7, 16⟩, ⟨0, 17⟩]⟩ 16 = .ok 7 ∧
    get_tid_from_tcs ⟨16, 2, [⟨7, 16⟩, ⟨0, 17⟩]⟩ 17 = .ok (-EINVAL) ∧
    get_tid_from_tcs ⟨16, 2, [⟨7, 16⟩, ⟨0, 17⟩]⟩ 18 = .ok (-EINVAL) := by
  decide

/-! ## C7: unbind without a bind -/

/-- C7, the code at a failing input. A thread that never bound (`tcb->tcs == NULL`)
calls `unmap_tcs()` on a table of two slots at base 16: the index is `-16`, the
assertion `index < g_enclave_thread_num` holds, and the write `map->tid = 0` goes to
index `-16`, outside the array, where the claim has a tripped assertion. An index at or
past the count trips the assertion, and a recorded slot of the table clears its entry
only. -/
theorem unmap_tcs_null_slot :
    tcs_index ⟨16, 2, [⟨7, 16⟩, ⟨8, 17⟩]⟩ tcb0.tcs = -16 ∧
    unmap_tcs ⟨16, 2, [⟨7, 16⟩, ⟨8, 17⟩]⟩ tcb0 = .error (.out_of_bounds (-16)) ∧
    unmap_tcs ⟨16, 2, [⟨7, 16⟩, ⟨8, 17⟩]⟩ tcb0 ≠ .error .assert_failed ∧
    unmap_tcs ⟨16, 2, [⟨7, 16⟩, ⟨8, 17⟩]⟩ { tcb0 with tcs := 18 } = .error .assert_failed ∧
    unmap_tcs ⟨16, 2, [⟨7, 16⟩, ⟨8, 17⟩]⟩ { tcb0 with tcs := 17 }
      = .ok (⟨16, 2, [⟨7, 16⟩, ⟨0, 17⟩]⟩, tcb0) := by
  decide

/-! ## C8: statistics -/

/-- The totals after the threads of `xs` have exited, from any totals `st`. -/
theorem exit_all_totals (pid : Int) (hpid : 0 < pid) :
    ∀ (xs : List Exiting) (st : Stats), (∀ x ∈ xs, 0 < x.tid) →
      st.g_eenter_cnt < 18446744073709551616 → st.g_eexit_cnt < 18446744073709551616 →
      st.g_aex_cnt < 18446744073709551616 → st.g_sync_signal_cnt < 18446744073709551616 →
      st.g_async_signal_cnt < 18446744073709551616 →
      ∃ out, exit_all pid st xs = .ok
        ({ g_eenter_cnt :=
             (st.g_eenter_cnt + (xs.map fun x => x.tcb.eenter_cnt).sum) % 18446744073709551616
           g_eexit_cnt :=
             (st.g_eexit_cnt + (xs.map fun x => x.tcb.eexit_cnt).sum) % 18446744073709551616
           g_aex_cnt :=
             (st.g_aex_cnt + (xs.map fun x => x.tcb.aex_cnt).sum) % 18446744073709551616
           g_sync_signal_cnt :=
             (st.g_sync_signal_cnt + (xs.map fun x => x.tcb.sync_signal_cnt).sum)
               % 18446744073709551616
           g_async_signal_cnt :=
             (st.g_async_signal_cnt + (xs.map fun x => x.tcb.async_signal_cnt).sum)
               % 18446744073709551616 }, out) := by
  intro xs
  induction xs with
  | nil =>
    intro st _ h1 h2 h3 h4 h5
    refine ⟨[], ?_⟩
    cases st
    simp only [exit_all, List.map_nil, List.sum_nil, Nat.add_zero] at h1 h2 h3 h4 h5 ⊢
    rw [Nat.mod_eq_of_lt h1, Nat.mod_eq_of_lt h2, Nat.mod_eq_of_lt h3, Nat.mod_eq_of_lt h4,
      Nat.mod_eq_of_lt h5]
  | cons x xs ih =>
    intro st htid _ _ _ _ _
    have hx : 0 < x.tid := htid x (List.mem_cons_self _ _)
    have hrest : ∀ y ∈ xs, 0 < y.tid := fun y hy => htid y (List.mem_cons_of_mem _ hy)
    have hstep : ∃ out1, update_and_print_stats true st x.tcb x.tid pid x.process_wide
        = .ok ({ g_eenter_cnt := add64 st.g_eenter_cnt x.tcb.eenter_cnt
                 g_eexit_cnt := add64 st.g_eexit_cnt x.tcb.eexit_cnt
                 g_aex_cnt := add64 st.g_aex_cnt x.tcb.aex_cnt
                 g_sync_signal_cnt := add64 st.g_sync_signal_cnt x.tcb.sync_signal_cnt
                 g_async_signal_cnt := add64 st.g_async_signal_cnt x.tcb.async_signal_cnt },
               out1) := by
      unfold update_and_print_stats
      cases x.process_wide <;> simp [hx, hpid]
    obtain ⟨out1, h1⟩ := hstep
    have hlt : ∀ a b : Nat, add64 a b < 18446744073709551616 := by
      intro a b; unfold add64; omega
    obtain ⟨out2, h2⟩ := ih
      { g_eenter_cnt := add64 st.g_eenter_cnt x.tcb.eenter_cnt
        g_eexit_cnt := add64 st.g_eexit_cnt x.tcb.eexit_cnt
        g_aex_cnt := add64 st.g_aex_cnt x.tcb.aex_cnt
        g_sync_signal_cnt := add64 st.g_sync_signal_cnt x.tcb.sync_signal_cnt
        g_async_signal_cnt := add64 st.g_async_signal_cnt x.tcb.async_signal_cnt }
      hrest (hlt _ _) (hlt _ _) (hlt _ _) (hlt _ _) (hlt _ _)
    refine ⟨out1 ++ out2, ?_⟩
    rw [exit_all, h1]
    simp only
    rw [h2]
    simp only [add64, List.map_cons, List.sum_cons, Except.ok.injEq, Prod.mk.injEq,
      and_true, Stats.mk.injEq]
    refine ⟨?_, ?_, ?_, ?_, ?_⟩ <;> omega

theorem counters_sum_perm {xs ys : List Exiting} (h : ys.Perm xs) :
    counters_sum ys = counters_sum xs := by
  unfold counters_sum
  rw [(h.map fun x => x.tcb.eenter_cnt).sum_eq, (h.map fun x => x.tcb.eexit_cnt).sum_eq,
    (h.map fun x => x.tcb.aex_cnt).sum_eq, (h.map fun x => x.tcb.sync_signal_cnt).sum_eq,
    (h.map fun x => x.tcb.async_signal_cnt).sum_eq]

theorem exit_all_zero (pid : Int) (hpid : 0 < pid) (xs : List Exiting)
    (htid : ∀ x ∈ xs, 0 < x.tid) :
    ∃ out, exit_all pid Stats.zero xs = .ok (counters_sum xs, out) := by
  obtain ⟨out, h⟩ := exit_all_totals pid hpid xs Stats.zero htid (by decide) (by decide)
    (by decide) (by decide) (by decide)
  refine ⟨out, ?_⟩
  rw [h]
  simp [Stats.zero, counters_sum]

/-- C8. With statistics enabled and `gettid`/`getpid` returning positive ids, let the
threads of `xs` each call `update_and_print_stats` once, starting from zero totals. The
calls return and the five totals are the component-wise sums modulo `2^64` of the
threads' counters; the same holds for every permutation `ys` of the exit order, and for
every list `zs` of the same threads with other `process_wide` arguments. -/
theorem stats_fold_order_independent (pid : Int) (xs ys zs : List Exiting) (hpid : 0 < pid)
    (htid : ∀ x ∈ xs, 0 < x.tid) (hperm : ys.Perm xs)
    (hsame : zs.map (fun x => (x.tcb, x.tid)) = xs.map (fun x => (x.tcb, x.tid))) :
    (∃ out, exit_all pid Stats.zero xs = .ok (counters_sum xs, out)) ∧
    (∃ out, exit_all pid Stats.zero ys = .ok (counters_sum xs, out)) ∧
    (∃ out, exit_all pid Stats.zero zs = .ok (counters_sum xs, out)) := by
  refine ⟨exit_all_zero pid hpid xs htid, ?_, ?_⟩
  · rw [← counters_sum_perm hperm]
    exact exit_all_zero pid hpid ys (fun y hy => htid y (hperm.mem_iff.mp hy))
  · have hz : ∀ z ∈ zs, 0 < z.tid := by
      intro z hz
      have hm : (z.tcb, z.tid) ∈ zs.map (fun x => (x.tcb, x.tid)) :=
        List.mem_map_of_mem (fun x : Exiting => (x.tcb, x.tid)) hz
      rw [hsame] at hm
      obtain ⟨x, hx, hxe⟩ := List.mem_map.mp hm
      simp only [Prod.mk.injEq] at hxe
      have := htid x hx
      omega
    have hsum : counters_sum zs = counters_sum xs := by
      have hmap : ∀ f : PAL_TCB_URTS → Nat,
          zs.map (fun x => f x.tcb) = xs.map (fun x => f x.tcb) := by
        intro f
        have := congrArg (List.map fun q : PAL_TCB_URTS × Int => f q.1) hsame
        simpa [List.map_map, Function.comp] using this
      unfold counters_sum
      rw [hmap PAL_TCB_URTS.eenter_cnt, hmap PAL_TCB_URTS.eexit_cnt,
        hmap PAL_TCB_URTS.aex_cnt, hmap PAL_TCB_URTS.sync_signal_cnt,
        hmap PAL_TCB_URTS.async_signal_cnt]
    rw [← hsum]
    exact exit_all_zero pid hpid zs hz

/-- C8 at the scenario of the specification, process 100: thread 101 with counters
5, 5, 2, 1, 0 exits with `process_wide = false` and the totals are those five values;
thread 102 with zero counters exits with `process_wide = true` and the process-wide
report shows the same five values; the reverse exit order and the other choice of
`process_wide` give the same totals. -/
theorem stats_fold_order_independent_witness :
    exit_all 100 Stats.zero
        [⟨{ tcb0 with eenter_cnt := 5, eexit_cnt := 5, aex_cnt := 2, sync_signal_cnt := 1 },
          101, false⟩]
      = .ok (⟨5, 5, 2, 1, 0⟩, [.thread 101 5 5 2 1 0]) ∧
    exit_all 100 Stats.zero
        [⟨{ tcb0 with eenter_cnt := 5, eexit_cnt := 5, aex_cnt := 2, sync_signal_cnt := 1 },
          101, false⟩, ⟨tcb0, 102, true⟩]
      = .ok (⟨5, 5, 2, 1, 0⟩,
          [.thread 101 5 5 2 1 0, .thread 102 0 0 0 0 0, .process 100 5 5 2 1 0]) ∧
    (∃ out, exit_all 100 Stats.zero
        [⟨tcb0, 102, true⟩,
         ⟨{ tcb0 with eenter_cnt := 5, eexit_cnt := 5, aex_cnt := 2, sync_signal_cnt := 1 },
          101, false⟩]
      = .ok (⟨5, 5, 2, 1, 0⟩, out)) ∧
    (∃ out, exit_all 100 Stats.zero
        [⟨{ tcb0 with eenter_cnt := 5, eexit_cnt := 5, aex_cnt := 2, sync_signal_cnt := 1 },
          101, true⟩, ⟨tcb0, 102, false⟩]
      = .ok (⟨5, 5, 2, 1, 0⟩, out)) := by
  have h := stats_fold_order_independent 100
    [⟨{ tcb0 with eenter_cnt := 5, eexit_cnt := 5, aex_cnt := 2, sync_signal_cnt := 1 },
      101, false⟩, ⟨tcb0, 102, true⟩]
    [⟨tcb0, 102, true⟩,
     ⟨{ tcb0 with eenter_cnt := 5, eexit_cnt := 5, aex_cnt := 2, sync_signal_cnt := 1 },
      101, false⟩]
    [⟨{ tcb0 with eenter_cnt := 5, eexit_cnt := 5, aex_cnt := 2, sync_signal_cnt := 1 },
      101, true⟩, ⟨tcb0, 102, false⟩]
    (by decide) (by decide) (List.Perm.swap _ _ _) rfl
  exact ⟨by decide, by decide, h.2.1, h.2.2⟩

/-! ## C9: slot exhaustion in thread initialization -/

/-- C9. For a thread with `tcb->tcs` NULL (a spawned thread, `tcb->stack` non-NULL, in
particular) whose `arch_prctl` and `sigaltstack` calls succeed, on a reachable table with no unbound entry,
`pal_thread_init` returns `-ENOMEM`, makes no call of `ecall_thread_start`, leaves the
table and the control block unchanged, and unmaps exactly once, namely the region at
`tcb->stack` of size `THREAD_STACK_SIZE + ALT_STACK_SIZE`. -/
theorem pal_thread_init_no_slot (p : Platform) (env : InitEnv)
    (during_ecall : TcsMapper → TcsMapper) (tcs_base thread_num : Nat) (g : TcsMapper)
    (tcbptr : Nat) (tcb : PAL_TCB_URTS) (hr : Reachable tcs_base thread_num g)
    (htcs : tcb.tcs = 0) (hgs : 0 ≤ env.arch_prctl)
    (hss : 0 ≤ env.sigaltstack)
    (hfull : ∀ (i : Nat) (e : thread_map), g.g_enclave_thread_map[i]? = some e → e.tid ≠ 0) :
    ∃ r : InitResult, pal_thread_init p env during_ecall g tcbptr tcb = .ok r ∧
      r.ret = -ENOMEM ∧ calls_ecall_thread_start r.trace = false ∧ r.g = g ∧ r.tcb = tcb ∧
      munmaps r.trace = [(tcb.stack, p.THREAD_STACK_SIZE + p.ALT_STACK_SIZE)] := by
  have hwf := WF_of_Reachable hr
  have hmap : map_tcs g tcb (toUInt32 env.gettid) = .ok (g, tcb) := by
    rcases map_tcs_cases hwf tcb (toUInt32 env.gettid) with ⟨k, e, _, hke, he, _, _⟩ | ⟨_, heq⟩
    · exact absurd he (hfull k e hke)
    · exact heq
  have h1 : ¬ env.arch_prctl < 0 := by omega
  have h2 : ¬ (tcb.alt_stack ≠ 0 ∧ env.sigaltstack < 0) := by
    intro h; omega
  have hres : pal_thread_init p env during_ecall g tcbptr tcb
      = .ok (pal_thread_init_out p (-ENOMEM) g tcb
          ((if tcb.alt_stack ≠ 0 then
              [Event.arch_prctl_set_gs tcbptr] ++
                [Event.sigaltstack tcb.alt_stack (p.ALT_STACK_SIZE - p.sizeof_PAL_TCB_URTS)]
            else [Event.arch_prctl_set_gs tcbptr]) ++
            [Event.gettid] ++ [Event.log_no_tcs_left g.g_enclave_thread_num])) := by
    simp only [pal_thread_init, h1, h2, if_false, hmap, htcs, if_true]
  refine ⟨_, hres, ?_⟩
  by_cases halt : tcb.alt_stack = 0
  · simp [pal_thread_init_out, calls_ecall_thread_start, munmaps, halt]
  · simp [pal_thread_init_out, calls_ecall_thread_start, munmaps, halt]

/-- C9 at capacity 0: a spawned thread with stack at `4096` and an alternate stack. -/
theorem pal_thread_init_no_slot_witness :
    ∃ r : InitResult,
      pal_thread_init platform0 ⟨0, 0, 41⟩ id (create_tcs_mapper 16 0) 135040
          (pal_tcb_urts_init 135040 4096 69632) = .ok r ∧
      r.ret = -ENOMEM ∧ calls_ecall_thread_start r.trace = false ∧
      r.g = create_tcs_mapper 16 0 ∧ r.tcb = pal_tcb_urts_init 135040 4096 69632 ∧
      munmaps r.trace = [((pal_tcb_urts_init 135040 4096 69632).stack,
        platform0.THREAD_STACK_SIZE + platform0.ALT_STACK_SIZE)] :=
  pal_thread_init_no_slot platform0 ⟨0, 0, 41⟩ id 16 0 (create_tcs_mapper 16 0) 135040
    (pal_tcb_urts_init 135040 4096 69632) Reachable.create rfl (by decide)
    (by decide) (by intro i e h; simp [create_tcs_mapper] at h)

/-! ## C10: thread creation -/

/-- C10. Whatever `mmap` and `clone` return, `clone_thread` requests at most one thread
creation; when the reservation fails it returns `-ENOMEM` with no creation and no
release; when the reservation succeeds and `clone` fails it releases exactly once, the
region at the address `mmap` returned with size `THREAD_STACK_SIZE + ALT_STACK_SIZE`,
and returns the error of `clone`; when `clone` succeeds it returns 0 and releases
nothing. -/
theorem clone_thread_outcomes (p : Platform) (mmap_ret : Nat) (clone_ret : Int) :
    clone_count (clone_thread p mmap_ret clone_ret).trace ≤ 1 ∧
    (p.IS_ERR_P mmap_ret = true →
      (clone_thread p mmap_ret clone_ret).ret = -ENOMEM ∧
      clone_count (clone_thread p mmap_ret clone_ret).trace = 0 ∧
      munmaps (clone_thread p mmap_ret clone_ret).trace = []) ∧
    (p.IS_ERR_P mmap_ret = false → clone_ret < 0 →
      (clone_thread p mmap_ret clone_ret).ret = clone_ret ∧
      clone_count (clone_thread p mmap_ret clone_ret).trace = 1 ∧
      munmaps (clone_thread p mmap_ret clone_ret).trace
        = [(mmap_ret, p.THREAD_STACK_SIZE + p.ALT_STACK_SIZE)]) ∧
    (p.IS_ERR_P mmap_ret = false → 0 ≤ clone_ret →
      (clone_thread p mmap_ret clone_ret).ret = 0 ∧
      clone_count (clone_thread p mmap_ret clone_ret).trace = 1 ∧
      munmaps (clone_thread p mmap_ret clone_ret).trace = []) := by
  by_cases herr : p.IS_ERR_P mmap_ret = true
  · simp [clone_thread, herr, clone_count, munmaps]
  · have herr : p.IS_ERR_P mmap_ret = false := by simpa using herr
    by_cases hneg : clone_ret < 0
    · have hn : ¬ 0 ≤ clone_ret := by omega
      simp [clone_thread, herr, hneg, hn, clone_count, munmaps]
    · have hn : 0 ≤ clone_ret := by omega
      simp [clone_thread, herr, hneg, hn, clone_count, munmaps]

/-- C10 at the three outcomes: `mmap` returns the error pointer for `-ENOMEM`; `mmap`
returns `4096` and `clone` returns `-11`; `mmap` returns `4096` and `clone` returns the
new thread id 42. -/
theorem clone_thread_outcomes_witness :
    ((clone_thread platform0 18446744073709551604 42).ret = -ENOMEM ∧
      clone_count (clone_thread platform0 18446744073709551604 42).trace = 0 ∧
      munmaps (clone_thread platform0 18446744073709551604 42).trace = []) ∧
    ((clone_thread platform0 4096 (-11)).ret = -11 ∧
      clone_count (clone_thread platform0 4096 (-11)).trace = 1 ∧
      munmaps (clone_thread platform0 4096 (-11)).trace
        = [(4096, platform0.THREAD_STACK_SIZE + platform0.ALT_STACK_SIZE)]) ∧
    ((clone_thread platform0 4096 42).ret = 0 ∧
      clone_count (clone_thread platform0 4096 42).trace = 1 ∧
      munmaps (clone_thread platform0 4096 42).trace = []) :=
  ⟨(clone_thread_outcomes platform0 18446744073709551604 42).2.1 (by decide),
    (clone_thread_outcomes platform0 4096 (-11)).2.2.1 (by decide) (by decide),
    (clone_thread_outcomes platform0 4096 42).2.2.2 (by decide) (by decide)⟩

end SgxThread
